import Mathlib

/-!
Verification of the Fibonacci evaluator (`fibonacci.go`).

The big-integer values (`math/big.Int`) are modelled as `ℤ`; the machine
integer index (`int`) is modelled as `ℤ` (no claim depends on 64-bit
overflow of the index); Go's right shift on a signed integer is arithmetic,
i.e. floor division by a power of two, and is modelled by `Int.fdiv`.
The mathematical reference sequence is Mathlib's `Nat.fib`, cast to `ℤ`,
together with the Lucas numbers.
-/

set_option maxRecDepth 20000

/-- The reference Fibonacci sequence, as an integer: F(0) = 0, F(1) = 1,
F(n+2) = F(n) + F(n+1). -/
def fibZ (n : ℕ) : ℤ := (Nat.fib n : ℤ)

/-- The Lucas numbers over ℤ: L(0) = 2, L(1) = 1, L(n+2) = L(n) + L(n+1).
They appear in the invariant of the Takahashi evaluator. -/
def lucZ : ℕ → ℤ
  | 0 => 2
  | 1 => 1
  | n + 2 => lucZ n + lucZ (n + 1)

theorem fibZ_zero : fibZ 0 = 0 := rfl

theorem fibZ_one : fibZ 1 = 1 := rfl

theorem fibZ_add_two (n : ℕ) : fibZ (n + 2) = fibZ n + fibZ (n + 1) := by
  unfold fibZ
  rw [Nat.fib_add_two]
  push_cast
  ring

theorem lucZ_eq : ∀ n : ℕ, lucZ n = 2 * fibZ (n + 1) - fibZ n
  | 0 => by norm_num [lucZ, fibZ]
  | 1 => by norm_num [lucZ, fibZ]
  | n + 2 => by
      have e1 : lucZ (n + 2) = lucZ n + lucZ (n + 1) := rfl
      have i0 : lucZ n = 2 * fibZ (n + 1) - fibZ n := lucZ_eq n
      have i1 : lucZ (n + 1) = 2 * fibZ (n + 2) - fibZ (n + 1) := lucZ_eq (n + 1)
      have h1 : fibZ (n + 2) = fibZ n + fibZ (n + 1) := fibZ_add_two n
      have h2 : fibZ (n + 3) = fibZ (n + 1) + fibZ (n + 2) := fibZ_add_two (n + 1)
      show lucZ (n + 2) = 2 * fibZ (n + 3) - fibZ (n + 2)
      linarith

/-- Cassini's identity over ℤ. -/
theorem fibZ_cassini : ∀ n : ℕ, fibZ (n + 1) ^ 2 - fibZ (n + 2) * fibZ n = (-1) ^ n
  | 0 => by norm_num [fibZ]
  | n + 1 => by
      have ih := fibZ_cassini n
      have h2 := fibZ_add_two n
      have h3 := fibZ_add_two (n + 1)
      have hp : ((-1 : ℤ)) ^ (n + 1) = -((-1) ^ n) := by ring
      rw [hp]
      linear_combination (-(fibZ (n + 1))) * h3 + fibZ (n + 2) * h2 - ih

theorem fibZ_two_mul (k : ℕ) : fibZ (2 * k) = fibZ k * (2 * fibZ (k + 1) - fibZ k) := by
  have h : Nat.fib k ≤ 2 * Nat.fib (k + 1) :=
    le_trans Nat.fib_le_fib_succ (by omega)
  unfold fibZ
  rw [Nat.fib_two_mul]
  push_cast [h]
  ring

theorem fibZ_two_mul_add_one (k : ℕ) : fibZ (2 * k + 1) = fibZ (k + 1) ^ 2 + fibZ k ^ 2 := by
  unfold fibZ
  rw [Nat.fib_two_mul_add_one]
  push_cast
  ring

/-- Doubling step for the Blenkinsop loop, even successor index. -/
theorem fibZ_two_mul_add_two (m : ℕ) :
    fibZ (2 * m + 2) = (2 * fibZ m + fibZ (m + 1)) * fibZ (m + 1) := by
  have h := fibZ_two_mul (m + 1)
  have h2 := fibZ_add_two m
  have he : 2 * (m + 1) = 2 * m + 2 := by ring
  rw [he] at h
  linear_combination h + (2 * fibZ (m + 1)) * h2

/-- The `f` update of the Takahashi doubling step. -/
theorem fibZ_takahashi_double (k : ℕ) :
    fibZ (2 * k) = 2 * fibZ (k + 1) ^ 2 - 3 * fibZ k ^ 2 - 2 * (-1) ^ k := by
  have h1 := fibZ_two_mul k
  have h2 := fibZ_cassini k
  have h3 := fibZ_add_two k
  linear_combination h1 - 2 * h2 - 2 * fibZ k * h3

/-- The `l` update of the Takahashi doubling step. -/
theorem lucZ_takahashi_double (k : ℕ) :
    lucZ (2 * k) = 5 * fibZ k ^ 2 + 2 * (-1) ^ k := by
  have h0 := lucZ_eq (2 * k)
  have h1 : fibZ (2 * k + 1) = fibZ (k + 1) ^ 2 + fibZ k ^ 2 := fibZ_two_mul_add_one k
  have h2 := fibZ_two_mul k
  have h3 := fibZ_cassini k
  have h4 := fibZ_add_two k
  linear_combination h0 + 2 * h1 - h2 + 2 * h3 + 2 * fibZ k * h4

/-- Halving identity: F(k) + L(k) = 2·F(k+1). -/
theorem fibZ_add_lucZ (k : ℕ) : fibZ k + lucZ k = 2 * fibZ (k + 1) := by
  have h := lucZ_eq k
  linear_combination h

/-- The `l` update of the Takahashi odd step: L(2k+1) = F(2k+1) + 2·F(2k). -/
theorem lucZ_odd_step (k : ℕ) : lucZ (2 * k + 1) = fibZ (2 * k + 1) + 2 * fibZ (2 * k) := by
  have h0 := lucZ_eq (2 * k + 1)
  have h1 : fibZ (2 * k + 2) = fibZ (2 * k) + fibZ (2 * k + 1) := fibZ_add_two (2 * k)
  linear_combination h0 + 2 * h1

/-- Final combination of the Takahashi evaluator, odd index. -/
theorem fibZ_takahashi_final_odd (k : ℕ) :
    fibZ (k + 1) * lucZ k - (-1) ^ k = fibZ (2 * k + 1) := by
  have h0 := lucZ_eq k
  have h1 := fibZ_two_mul_add_one k
  have h2 := fibZ_cassini k
  have h3 := fibZ_add_two k
  linear_combination fibZ (k + 1) * h0 - h1 + h2 + fibZ k * h3

/-- Final combination of the Takahashi evaluator, even index. -/
theorem fibZ_takahashi_final_even (k : ℕ) : fibZ k * lucZ k = fibZ (2 * k) := by
  have h0 := lucZ_eq k
  have h1 := fibZ_two_mul k
  linear_combination fibZ k * h0 - h1

/-!
Embedding of `fibonacci.go`.
-/

/-- Static cache of the first 93 Fibonacci numbers (`fibonacciTable` in the
source), indices 0 through 92, the values representable in 63 bits. -/
def fibonacciTable : List ℤ := [
  0, -- value for index 0
  1, 1, 2, 3, 5, 8, 13, 21, 34, 55, 89, 144, 233, 377, 610, 987, 1597,
  2584, 4181, 6765, 10946, 17711, 28657, 46368, 75025, 121393, 196418,
  317811, 514229, 832040, 1346269, 2178309, 3524578, 5702887, 9227465,
  14930352, 24157817, 39088169, 63245986, 102334155, 165580141,
  267914296, 433494437, 701408733, 1134903170, 1836311903, 2971215073,
  4807526976, 7778742049, 12586269025, 20365011074, 32951280099,
  53316291173, 86267571272, 139583862445, 225851433717, 365435296162,
  591286729879, 956722026041, 1548008755920, 2504730781961, 4052739537881,
  6557470319842, 10610209857723, 17167680177565, 27777890035288,
  44945570212853, 72723460248141, 117669030460994, 190392490709135,
  308061521170129, 498454011879264, 806515533049393, 1304969544928657,
  2111485077978050, 3416454622906707, 5527939700884757, 8944394323791464,
  14472334024676221, 23416728348467685, 37889062373143906,
  61305790721611591, 99194853094755497, 160500643816367088,
  259695496911122585, 420196140727489673, 679891637638612258,
  1100087778366101931, 1779979416004714189, 2880067194370816120,
  4660046610375530309, 7540113804746346429]

/-- The loop body of `log2` from the source: `bits` is incremented while
`n >> (bits+1) != 0`.  The extra `fuel` argument bounds the number of loop
iterations so that the definition is structural; `log2Aux_spec` below shows
that any fuel with `Nat.log 2 n ≤ bits + fuel` is enough for the loop to
reach its exit condition, so the result is fuel-independent from there on. -/
def log2Aux (n : ℕ) : ℕ → ℕ → ℕ
  | 0, bits => bits
  | fuel + 1, bits => if n >>> (bits + 1) ≠ 0 then log2Aux n fuel (bits + 1) else bits

/-- `log2` from the source, on a nonnegative argument (every caller in the
source guards `n ≥ 1`); `fuel = n` iterations always suffice (`log2_eq_log`). -/
def log2 (n : ℕ) : ℕ := log2Aux n n 0

/-- The loop of `fibSeries`: `a, b = b, a.Add(a, b)`, iterated. -/
def fibSeriesLoop : ℕ → ℤ × ℤ → ℤ × ℤ
  | 0, p => p
  | i + 1, p => fibSeriesLoop i (p.2, p.1 + p.2)

/-- `fibSeries` from the source: direct series evaluation. -/
def fibSeries (n : ℤ) : ℤ :=
  if n < 1 then 0 else (fibSeriesLoop n.toNat (0, 1)).1

/-- One iteration of the `fibBlenkinsop` loop at counter value `h`; it reads
bit `h - 1` of `n` (`(n>>(h-1))&1` in the source).  The pair `p` is `(f1, f2)`;
`f3 = f1 + f2` is the scratch value computed at the top of the body.  In the
odd branch the source computes `f1 = (f1+f3)*f2` and `f2 = f2*f2 + f3*f3`; in
the even branch it computes `f3 = (f1+f3)*f2`, `f1 = f1*f1 + f2*f2` and then
swaps `f2` and `f3`. -/
def blenkStep (n : ℕ) (h : ℕ) (p : ℤ × ℤ) : ℤ × ℤ :=
  let f3 := p.1 + p.2
  if (n >>> (h - 1)) % 2 = 1 then
    ((p.1 + f3) * p.2, p.2 * p.2 + f3 * f3)
  else
    (p.1 * p.1 + p.2 * p.2, (p.1 + f3) * p.2)

/-- The `fibBlenkinsop` loop, running the counter from `h` down to `1`. -/
def blenkLoop (n : ℕ) : ℕ → ℤ × ℤ → ℤ × ℤ
  | 0, p => p
  | h + 1, p => blenkLoop n h (blenkStep n (h + 1) p)

/-- `fibBlenkinsop` from the source: bit-scanning identity evaluation starting
from `(f1, f2) = (0, 1)` with the counter starting at `log2 n`; returns `f2`. -/
def fibBlenkinsop (n : ℤ) : ℤ :=
  if n < 1 then 0 else (blenkLoop n.toNat (log2 n.toNat) (0, 1)).2

/-- State of the `fibTakahashi` loop: the accumulators `f`, `l`, `sign`. -/
structure TakState where
  f : ℤ
  l : ℤ
  sign : ℤ
deriving DecidableEq

/-- One iteration of the `fibTakahashi` bit loop, reading bit `pos` of `n`
(the source tests `n & mask` with `mask = 2^pos`).  `big.Int.Rsh` is a right
shift, i.e. floor division by 2, modelled by `Int.fdiv`; the unconditional
part computes `t1 = f*f`, `f = (f+l)>>1`, `f = (f*f)<<1 - 3*t1 - 2*sign`,
`l = 5*t1 + 2*sign`, `sign = 1`; when the bit is set it continues with
`t1 = f`, `f = (f+l)>>1`, `l = f + 2*t1`, `sign = -1`. -/
def takStep (n : ℕ) (pos : ℕ) (s : TakState) : TakState :=
  let t1 := s.f * s.f
  let fHalf := Int.fdiv (s.f + s.l) 2
  let fDbl := 2 * (fHalf * fHalf) - 3 * t1 - 2 * s.sign
  let lDbl := 5 * t1 + 2 * s.sign
  if (n >>> pos) % 2 = 1 then
    let fOdd := Int.fdiv (fDbl + lDbl) 2
    ⟨fOdd, fOdd + 2 * fDbl, -1⟩
  else
    ⟨fDbl, lDbl, 1⟩

/-- The `fibTakahashi` loop, reading bits from position `pos` down to `1`
(the source's `for i := 1; i < bits; i++` with `mask` from `2^(bits-1)`
down to `2^1`). -/
def takLoop (n : ℕ) : ℕ → TakState → TakState
  | 0, s => s
  | p + 1, s => takLoop n p (takStep n (p + 1) s)

/-- `fibTakahashi` from the source: Lucas-sequence evaluation.  After the bit
loop the mask has reached `2^0 = 1`, so the final branch tests the parity of
`n`: when even, `f = f*l`; when odd, `f = (f+l)>>1` then `f = f*l - sign`. -/
def fibTakahashi (n : ℤ) : ℤ :=
  if n ≤ 0 then 0
  else if n ≤ 2 then 1
  else
    let m := n.toNat
    let s := takLoop m (log2 m - 1) ⟨1, 1, -1⟩
    if m % 2 = 0 then s.f * s.l
    else Int.fdiv (s.f + s.l) 2 * s.l - s.sign

/-- `Fibonacci` from the source: the dispatcher. -/
def Fibonacci (n : ℤ) : ℤ :=
  if n < 1 then 0
  else if n < (fibonacciTable.length : ℤ) then fibonacciTable.getD n.toNat 0
  else if n ≤ 100 then fibSeries n
  else if n ≤ 5504 then fibBlenkinsop n
  else fibTakahashi n

/-- Arithmetic right shift on ℤ: Go's `>>` on a signed integer shifts in
copies of the sign bit, which is floor division by `2^k`. -/
def sar (x : ℤ) (k : ℕ) : ℤ := Int.fdiv x (2 ^ k)

/-- The `log2` loop on a signed argument, fuelled: `none` means the fuel ran
out with the loop still running.  This models the termination behaviour of
`log2` on the full `int` domain, including negative arguments. -/
def log2LoopZ (n : ℤ) : ℕ → ℕ → Option ℕ
  | 0, _ => none
  | fuel + 1, bits => if sar n (bits + 1) ≠ 0 then log2LoopZ n fuel (bits + 1) else some bits

/-- `fibBlenkinsop` with the `log2` loop made explicitly fuelled. -/
def fibBlenkinsopOpt (fuel : ℕ) (n : ℤ) : Option ℤ :=
  if n < 1 then some 0
  else (log2LoopZ n fuel 0).map fun h => (blenkLoop n.toNat h (0, 1)).2

/-- `fibTakahashi` with the `log2` loop made explicitly fuelled. -/
def fibTakahashiOpt (fuel : ℕ) (n : ℤ) : Option ℤ :=
  if n ≤ 0 then some 0
  else if n ≤ 2 then some 1
  else (log2LoopZ n fuel 0).map fun bits =>
    let m := n.toNat
    let s := takLoop m (bits - 1) ⟨1, 1, -1⟩
    if m % 2 = 0 then s.f * s.l
    else Int.fdiv (s.f + s.l) 2 * s.l - s.sign

/-- `Fibonacci` with the `log2` loop made explicitly fuelled: `some` exactly
when every loop in the call finishes within the given fuel. -/
def FibonacciOpt (fuel : ℕ) (n : ℤ) : Option ℤ :=
  if n < 1 then some 0
  else if n < (fibonacciTable.length : ℤ) then some (fibonacciTable.getD n.toNat 0)
  else if n ≤ 100 then some (fibSeries n)
  else if n ≤ 5504 then fibBlenkinsopOpt fuel n
  else fibTakahashiOpt fuel n

/-!
Correctness of `log2`.
-/

/-- With enough fuel, the `log2` loop computes `Nat.log 2 n`; in particular
the result is independent of the fuel from `Nat.log 2 n - bits` on, which is
exactly the statement that the source's unfuelled loop terminates with this
value. -/
theorem log2Aux_spec (n : ℕ) (hn : n ≠ 0) :
    ∀ fuel bits, 2 ^ bits ≤ n → Nat.log 2 n ≤ bits + fuel → log2Aux n fuel bits = Nat.log 2 n
  | 0, bits, h1, h2 => by
      have hb : bits ≤ Nat.log 2 n := (Nat.pow_le_iff_le_log one_lt_two hn).mp h1
      have hbe : bits = Nat.log 2 n := by omega
      rw [log2Aux, hbe]
  | fuel + 1, bits, h1, h2 => by
      rw [log2Aux]
      by_cases hg : n >>> (bits + 1) ≠ 0
      · rw [if_pos hg]
        have hge : 2 ^ (bits + 1) ≤ n := by
          by_contra hlt
          push_neg at hlt
          exact hg (by rw [Nat.shiftRight_eq_div_pow]; exact Nat.div_eq_of_lt hlt)
        have hlog : bits + 1 ≤ Nat.log 2 n := (Nat.pow_le_iff_le_log one_lt_two hn).mp hge
        exact log2Aux_spec n hn fuel (bits + 1) hge (by omega)
      · rw [if_neg hg]
        push_neg at hg
        have hlt : n < 2 ^ (bits + 1) := by
          by_contra hge
          push_neg at hge
          rw [Nat.shiftRight_eq_div_pow] at hg
          have h1d : 1 ≤ n / 2 ^ (bits + 1) :=
            (Nat.one_le_div_iff (Nat.pos_pow_of_pos _ (by omega))).mpr hge
          omega
        exact (Nat.log_eq_of_pow_le_of_lt_pow h1 hlt).symm

/-- For every `n ≥ 1`, `log2 n` is `Nat.log 2 n`. -/
theorem log2_eq_log (n : ℕ) (hn : 1 ≤ n) : log2 n = Nat.log 2 n :=
  log2Aux_spec n (by omega) n 0 (by simpa using hn)
    (by simpa using Nat.log_le_self 2 n)

/-- The two-power characterisation of `log2`: the result is the 0-indexed
position of the most significant set bit. -/
theorem log2_msb (n : ℕ) (hn : 1 ≤ n) : 2 ^ log2 n ≤ n ∧ n < 2 ^ (log2 n + 1) := by
  rw [log2_eq_log n hn]
  exact ⟨Nat.pow_log_le_self 2 (by omega), Nat.lt_pow_succ_log_self one_lt_two n⟩

/-- Shifting `n` past its most significant bit leaves exactly `1`. -/
theorem shiftRight_log2 (n : ℕ) (hn : 1 ≤ n) : n >>> log2 n = 1 := by
  obtain ⟨h1, h2⟩ := log2_msb n hn
  rw [Nat.shiftRight_eq_div_pow]
  have hp : (2 : ℕ) ^ (log2 n + 1) = 2 ^ log2 n * 2 := pow_succ 2 (log2 n)
  exact Nat.div_eq_of_lt_le (by omega) (by omega)

/-!
Correctness of `fibSeries`.
-/

theorem fibSeriesLoop_eq : ∀ m j : ℕ,
    fibSeriesLoop m (fibZ j, fibZ (j + 1)) = (fibZ (m + j), fibZ (m + j + 1))
  | 0, j => by simp [fibSeriesLoop]
  | m + 1, j => by
      rw [fibSeriesLoop]
      have hstep : ((fibZ j, fibZ (j + 1)).2, (fibZ j, fibZ (j + 1)).1 + (fibZ j, fibZ (j + 1)).2)
          = (fibZ (j + 1), fibZ (j + 2)) := by
        rw [fibZ_add_two j]
      rw [hstep, fibSeriesLoop_eq m (j + 1)]
      have e1 : m + (j + 1) = m + 1 + j := by omega
      rw [e1]

/-- `fibSeries` computes the Fibonacci numbers. -/
theorem fibSeries_eq (n : ℤ) (hn : 1 ≤ n) : fibSeries n = fibZ n.toNat := by
  unfold fibSeries
  rw [if_neg (by omega)]
  have h01 : ((0 : ℤ), (1 : ℤ)) = (fibZ 0, fibZ 1) := by norm_num [fibZ]
  rw [h01, fibSeriesLoop_eq n.toNat 0]
  norm_num

/-!
Correctness of `fibBlenkinsop`.

The loop invariant: entering the iteration with counter value `h`, the pair
`(f1, f2)` equals `(F(k-1), F(k))` where `k = n >>> h` is the value of the
bits of `n` consumed so far (the leading bit included).
-/

/-- One `fibBlenkinsop` step advances the invariant pair `(F(m), F(m+1))`
(that is, `(F(k-1), F(k))` with `k = m+1`) to the pair for `2k+1` when the
scanned bit is set, and to the pair for `2k` when it is clear. -/
theorem blenkStep_pair (n h m : ℕ) :
    blenkStep n h (fibZ m, fibZ (m + 1)) =
      if (n >>> (h - 1)) % 2 = 1 then (fibZ (2 * m + 2), fibZ (2 * m + 3))
      else (fibZ (2 * m + 1), fibZ (2 * m + 2)) := by
  have h1 : fibZ (2 * m + 3) = fibZ (m + 2) ^ 2 + fibZ (m + 1) ^ 2 :=
    fibZ_two_mul_add_one (m + 1)
  have h2 : fibZ (m + 2) = fibZ m + fibZ (m + 1) := fibZ_add_two m
  have h3 := fibZ_two_mul_add_one m
  have h4 := fibZ_two_mul_add_two m
  simp only [blenkStep]
  by_cases hb : (n >>> (h - 1)) % 2 = 1
  · rw [if_pos hb, if_pos hb, h4, h1, h2]
    simp only [Prod.mk.injEq]
    constructor <;> ring
  · rw [if_neg hb, if_neg hb, h3, h4]
    simp only [Prod.mk.injEq]
    constructor <;> ring

/-- Running the `fibBlenkinsop` loop from any point satisfying its invariant
ends in the pair `(F(n-1), F(n))`. -/
theorem blenkLoop_inv (n : ℕ) : ∀ h, 1 ≤ n >>> h →
    blenkLoop n h (fibZ (n >>> h - 1), fibZ (n >>> h)) = (fibZ (n - 1), fibZ n)
  | 0, h1 => by rw [blenkLoop, Nat.shiftRight_zero]
  | h + 1, h1 => by
      obtain ⟨m, hm⟩ : ∃ m, n >>> (h + 1) = m + 1 := ⟨n >>> (h + 1) - 1, by omega⟩
      have hs : n >>> (h + 1) = n >>> h / 2 := Nat.shiftRight_succ n h
      have hmod : n >>> h % 2 = 0 ∨ n >>> h % 2 = 1 := Nat.mod_two_eq_zero_or_one _
      have hstep := blenkStep_pair n (h + 1) m
      simp only [Nat.add_sub_cancel] at hstep
      rw [blenkLoop, hm]
      simp only [Nat.add_sub_cancel]
      rw [hstep]
      rcases hmod with hb | hb
      · rw [if_neg (by omega)]
        have hval : n >>> h = 2 * m + 2 := by omega
        have ih := blenkLoop_inv n h (by omega)
        rw [hval] at ih
        simpa using ih
      · rw [if_pos (by omega)]
        have hval : n >>> h = 2 * m + 3 := by omega
        have ih := blenkLoop_inv n h (by omega)
        rw [hval] at ih
        simpa using ih

/-- `fibBlenkinsop` computes the Fibonacci numbers. -/
theorem fibBlenkinsop_eq (n : ℤ) (hn : 1 ≤ n) : fibBlenkinsop n = fibZ n.toNat := by
  unfold fibBlenkinsop
  rw [if_neg (by omega)]
  have hm1 : 1 ≤ n.toNat := by omega
  have htop := shiftRight_log2 n.toNat hm1
  have hloop := blenkLoop_inv n.toNat (log2 n.toNat) (by omega)
  rw [htop] at hloop
  have h01 : ((fibZ (1 - 1) : ℤ), fibZ 1) = ((0 : ℤ), (1 : ℤ)) := by norm_num [fibZ]
  rw [h01] at hloop
  rw [hloop]

/-!
Correctness of `fibTakahashi`.

The loop invariant: entering the iteration that reads bit `pos`, the state is
`(F(k), L(k), (-1)^k)` where `k = n >>> (pos+1)` is the value of the bits of
`n` consumed so far (the leading bit included).
-/

/-- One `fibTakahashi` step advances the invariant state for `k` to the state
for `2k+1` when the scanned bit is set, and for `2k` when it is clear. -/
theorem takStep_state (n pos k : ℕ) :
    takStep n pos ⟨fibZ k, lucZ k, (-1) ^ k⟩ =
      if (n >>> pos) % 2 = 1 then ⟨fibZ (2 * k + 1), lucZ (2 * k + 1), (-1) ^ (2 * k + 1)⟩
      else ⟨fibZ (2 * k), lucZ (2 * k), (-1) ^ (2 * k)⟩ := by
  have hhalf : Int.fdiv (fibZ k + lucZ k) 2 = fibZ (k + 1) := by
    rw [fibZ_add_lucZ k]
    exact Int.mul_fdiv_cancel_left _ (by norm_num)
  have hf : 2 * (fibZ (k + 1) * fibZ (k + 1)) - 3 * (fibZ k * fibZ k) - 2 * (-1) ^ k
      = fibZ (2 * k) := by
    linear_combination (-1 : ℤ) * fibZ_takahashi_double k
  have hl : 5 * (fibZ k * fibZ k) + 2 * (-1) ^ k = lucZ (2 * k) := by
    linear_combination (-1 : ℤ) * lucZ_takahashi_double k
  have hhalf2 : Int.fdiv (fibZ (2 * k) + lucZ (2 * k)) 2 = fibZ (2 * k + 1) := by
    rw [fibZ_add_lucZ (2 * k)]
    exact Int.mul_fdiv_cancel_left _ (by norm_num)
  have hlodd : fibZ (2 * k + 1) + 2 * fibZ (2 * k) = lucZ (2 * k + 1) :=
    (lucZ_odd_step k).symm
  have hsignE : ((-1 : ℤ)) ^ (2 * k) = 1 := by
    rw [pow_mul]
    norm_num
  have hsignO : ((-1 : ℤ)) ^ (2 * k + 1) = -1 := by
    rw [pow_succ, hsignE]
    norm_num
  by_cases hb : (n >>> pos) % 2 = 1
  · simp only [takStep, if_pos hb, hhalf, hf, hl, hhalf2, hlodd, hsignO]
  · simp only [takStep, if_neg hb, hhalf, hf, hl, hsignE]

/-- Running the `fibTakahashi` bit loop from any point satisfying its
invariant ends in the state for `k = n >>> 1`. -/
theorem takLoop_inv (n : ℕ) : ∀ p, 1 ≤ n >>> (p + 1) →
    takLoop n p ⟨fibZ (n >>> (p + 1)), lucZ (n >>> (p + 1)), ((-1 : ℤ)) ^ (n >>> (p + 1))⟩
      = ⟨fibZ (n >>> 1), lucZ (n >>> 1), ((-1 : ℤ)) ^ (n >>> 1)⟩
  | 0, h1 => by rw [takLoop]
  | p + 1, h1 => by
      have hs : n >>> (p + 1 + 1) = n >>> (p + 1) / 2 := Nat.shiftRight_succ n (p + 1)
      have hmod : n >>> (p + 1) % 2 = 0 ∨ n >>> (p + 1) % 2 = 1 :=
        Nat.mod_two_eq_zero_or_one _
      rw [takLoop, takStep_state n (p + 1) (n >>> (p + 1 + 1))]
      rcases hmod with hb | hb
      · rw [if_neg (by omega)]
        have hval : n >>> (p + 1) = 2 * (n >>> (p + 1 + 1)) := by omega
        rw [← hval]
        exact takLoop_inv n p (by omega)
      · rw [if_pos (by omega)]
        have hval : n >>> (p + 1) = 2 * (n >>> (p + 1 + 1)) + 1 := by omega
        rw [← hval]
        exact takLoop_inv n p (by omega)

/-- `fibTakahashi` computes the Fibonacci numbers. -/
theorem fibTakahashi_eq (n : ℤ) (hn : 1 ≤ n) : fibTakahashi n = fibZ n.toNat := by
  unfold fibTakahashi
  rw [if_neg (by omega)]
  by_cases h2 : n ≤ 2
  · rw [if_pos h2]
    interval_cases n
    · decide
    · decide
  · rw [if_neg h2]
    have hm3 : 3 ≤ n.toNat := by omega
    have hm1 : 1 ≤ n.toNat := by omega
    have hlog1 : 1 ≤ log2 n.toNat := by
      by_contra hl
      push_neg at hl
      obtain ⟨ha, hb⟩ := log2_msb n.toNat hm1
      have hz : log2 n.toNat = 0 := by omega
      rw [hz] at hb
      norm_num at hb
      omega
    have he : log2 n.toNat - 1 + 1 = log2 n.toNat := by omega
    have htop : n.toNat >>> (log2 n.toNat - 1 + 1) = 1 := by
      rw [he]
      exact shiftRight_log2 n.toNat hm1
    have hloop := takLoop_inv n.toNat (log2 n.toNat - 1) (by omega)
    rw [htop] at hloop
    have hinit : (⟨1, 1, -1⟩ : TakState) = ⟨fibZ 1, lucZ 1, (-1) ^ 1⟩ := by
      norm_num [fibZ, lucZ]
    have hs1 : n.toNat >>> 1 = n.toNat / 2 := by
      rw [Nat.shiftRight_succ, Nat.shiftRight_zero]
    rcases Nat.mod_two_eq_zero_or_one n.toNat with hb | hb
    · have hval : n.toNat = 2 * (n.toNat >>> 1) := by omega
      simp only [hinit, hloop, if_pos hb]
      rw [fibZ_takahashi_final_even (n.toNat >>> 1), ← hval]
    · have hval : n.toNat = 2 * (n.toNat >>> 1) + 1 := by omega
      have hfin : Int.fdiv (fibZ (n.toNat >>> 1) + lucZ (n.toNat >>> 1)) 2
          = fibZ (n.toNat >>> 1 + 1) := by
        rw [fibZ_add_lucZ]
        exact Int.mul_fdiv_cancel_left _ (by norm_num)
      simp only [hinit, hloop, if_neg (by omega : ¬ n.toNat % 2 = 0)]
      rw [hfin, fibZ_takahashi_final_odd (n.toNat >>> 1), ← hval]

/-!
The table and the dispatcher.
-/

theorem fibonacciTable_length : fibonacciTable.length = 93 := rfl

theorem fibonacciTable_entries : ∀ i, i < 93 → fibonacciTable.getD i 0 = fibZ i := by decide

/-- The dispatcher is correct on every nonnegative index. -/
theorem Fibonacci_eq (n : ℤ) (hn : 0 ≤ n) : Fibonacci n = fibZ n.toNat := by
  unfold Fibonacci
  have hlen : (fibonacciTable.length : ℤ) = 93 := by
    rw [fibonacciTable_length]
    norm_num
  rw [hlen]
  by_cases h1 : n < 1
  · rw [if_pos h1]
    have h0 : n = 0 := by omega
    subst h0
    decide
  · rw [if_neg h1]
    by_cases h2 : n < 93
    · rw [if_pos h2]
      exact fibonacciTable_entries n.toNat (by omega)
    · rw [if_neg h2]
      by_cases h3 : n ≤ 100
      · rw [if_pos h3]
        exact fibSeries_eq n (by omega)
      · rw [if_neg h3]
        by_cases h4 : n ≤ 5504
        · rw [if_pos h4]
          exact fibBlenkinsop_eq n (by omega)
        · rw [if_neg h4]
          exact fibTakahashi_eq n (by omega)

/-!
Termination of the `log2` loop on the signed domain.
-/

/-- On a nonnegative argument the arithmetic shift agrees with the logical
shift of the natural number. -/
theorem sar_nonneg_eq (x : ℤ) (hx : 0 ≤ x) (k : ℕ) :
    sar x k = ((x.toNat >>> k : ℕ) : ℤ) := by
  unfold sar
  rw [Int.fdiv_eq_ediv _ (by positivity), Nat.shiftRight_eq_div_pow]
  obtain ⟨m, rfl⟩ := Int.eq_ofNat_of_zero_le hx
  rw [Int.toNat_natCast]
  push_cast
  norm_cast

/-- For a positive argument, enough fuel makes the signed `log2` loop exit
with `Nat.log 2 n`. -/
theorem log2LoopZ_spec (n : ℤ) (hn : 1 ≤ n) :
    ∀ fuel bits, 2 ^ bits ≤ n.toNat → Nat.log 2 n.toNat + 1 ≤ bits + fuel →
      log2LoopZ n fuel bits = some (Nat.log 2 n.toNat)
  | 0, bits, h1, h2 => by
      have hb : bits ≤ Nat.log 2 n.toNat :=
        (Nat.pow_le_iff_le_log one_lt_two (by omega)).mp h1
      omega
  | fuel + 1, bits, h1, h2 => by
      rw [log2LoopZ]
      have hg : sar n (bits + 1) = ((n.toNat >>> (bits + 1) : ℕ) : ℤ) :=
        sar_nonneg_eq n (by omega) (bits + 1)
      by_cases hz : n.toNat >>> (bits + 1) = 0
      · rw [if_neg (by rw [hg, hz]; norm_num)]
        have hlt : n.toNat < 2 ^ (bits + 1) := by
          by_contra hge
          push_neg at hge
          rw [Nat.shiftRight_eq_div_pow] at hz
          have h1d : 1 ≤ n.toNat / 2 ^ (bits + 1) :=
            (Nat.one_le_div_iff (Nat.pos_pow_of_pos _ (by omega))).mpr hge
          omega
        rw [Nat.log_eq_of_pow_le_of_lt_pow h1 hlt]
      · rw [if_pos (by rw [hg]; exact_mod_cast hz)]
        have hge : 2 ^ (bits + 1) ≤ n.toNat := by
          by_contra hlt
          push_neg at hlt
          exact hz (by rw [Nat.shiftRight_eq_div_pow]; exact Nat.div_eq_of_lt hlt)
        exact log2LoopZ_spec n hn fuel (bits + 1) hge (by omega)

/-- With fuel `n + 1` the signed `log2` loop computes exactly the value the
evaluators use. -/
theorem log2LoopZ_eq_log2 (n : ℤ) (hn : 1 ≤ n) :
    log2LoopZ n (n.toNat + 1) 0 = some (log2 n.toNat) := by
  rw [log2_eq_log n.toNat (by omega)]
  exact log2LoopZ_spec n hn (n.toNat + 1) 0 (by simpa using (by omega : 1 ≤ n.toNat))
    (by have := Nat.log_le_self 2 n.toNat; omega)

/-- On a negative argument the `log2` loop guard never becomes false: the
arithmetic shift of a negative value stays negative, so the loop runs
forever no matter how much fuel it is given. -/
theorem log2LoopZ_neg (n : ℤ) (hn : n < 0) : ∀ fuel bits, log2LoopZ n fuel bits = none
  | 0, _ => rfl
  | fuel + 1, bits => by
      rw [log2LoopZ]
      have hneg : sar n (bits + 1) < 0 := by
        unfold sar
        rw [Int.fdiv_eq_ediv _ (by positivity)]
        exact Int.ediv_neg' hn (by positivity)
      rw [if_pos (by omega)]
      exact log2LoopZ_neg n hn fuel (bits + 1)

theorem fibBlenkinsopOpt_total (n : ℤ) : fibBlenkinsopOpt (n.toNat + 1) n = some (fibBlenkinsop n) := by
  unfold fibBlenkinsopOpt fibBlenkinsop
  by_cases h1 : n < 1
  · rw [if_pos h1, if_pos h1]
  · rw [if_neg h1, if_neg h1, log2LoopZ_eq_log2 n (by omega)]
    rfl

theorem fibTakahashiOpt_total (n : ℤ) : fibTakahashiOpt (n.toNat + 1) n = some (fibTakahashi n) := by
  unfold fibTakahashiOpt fibTakahashi
  by_cases h1 : n ≤ 0
  · rw [if_pos h1, if_pos h1]
  · rw [if_neg h1, if_neg h1]
    by_cases h2 : n ≤ 2
    · rw [if_pos h2, if_pos h2]
    · rw [if_neg h2, if_neg h2, log2LoopZ_eq_log2 n (by omega)]
      rfl

/-- Every call of the dispatcher finishes: fuel `n + 1` already suffices for
every loop reached on the call path of input `n`. -/
theorem FibonacciOpt_total (n : ℤ) : FibonacciOpt (n.toNat + 1) n = some (Fibonacci n) := by
  unfold FibonacciOpt Fibonacci
  by_cases h1 : n < 1
  · rw [if_pos h1, if_pos h1]
  · rw [if_neg h1, if_neg h1]
    by_cases h2 : n < (fibonacciTable.length : ℤ)
    · rw [if_pos h2, if_pos h2]
    · rw [if_neg h2, if_neg h2]
      by_cases h3 : n ≤ 100
      · rw [if_pos h3, if_pos h3]
      · rw [if_neg h3, if_neg h3]
        by_cases h4 : n ≤ 5504
        · rw [if_pos h4, if_pos h4]
          exact fibBlenkinsopOpt_total n
        · rw [if_neg h4, if_neg h4]
          exact fibTakahashiOpt_total n

/-!
The claims.
-/

/-- C1: for every n ≥ 0, `Fibonacci n` is the n-th Fibonacci number as an
exact arbitrary-precision integer, and `Fibonacci n = Fibonacci (n-1) +
Fibonacci (n-2)` holds for every n ≥ 2, across all four algorithm regions. -/
theorem claim_C1_fibonacci_correct (n : ℤ) (hn : 0 ≤ n) :
    Fibonacci n = fibZ n.toNat ∧
    (2 ≤ n → Fibonacci n = Fibonacci (n - 1) + Fibonacci (n - 2)) := by
  refine ⟨Fibonacci_eq n hn, fun h2 => ?_⟩
  rw [Fibonacci_eq n hn, Fibonacci_eq (n - 1) (by omega), Fibonacci_eq (n - 2) (by omega)]
  have e1 : n.toNat = (n - 2).toNat + 2 := by omega
  have e2 : (n - 1).toNat = (n - 2).toNat + 1 := by omega
  rw [e1, e2, fibZ_add_two]
  ring

/-- Witness for C1 at n = 5. -/
theorem claim_C1_witness :
    Fibonacci 5 = fibZ (5 : ℤ).toNat ∧
      (2 ≤ (5 : ℤ) → Fibonacci 5 = Fibonacci (5 - 1) + Fibonacci (5 - 2)) :=
  claim_C1_fibonacci_correct 5 (by norm_num)

/-- C2: the three evaluators agree bit-for-bit for every n ≥ 1 where two
regions could both apply; in particular `fibSeries` and `fibBlenkinsop` give
354224848179261915075 at 100, and `fibBlenkinsop` and `fibTakahashi` agree
at 5504 and 5505. -/
theorem claim_C2_evaluators_agree :
    (∀ n : ℤ, 1 ≤ n → fibSeries n = fibBlenkinsop n ∧ fibBlenkinsop n = fibTakahashi n) ∧
    fibSeries 100 = 354224848179261915075 ∧
    fibBlenkinsop 100 = 354224848179261915075 ∧
    fibBlenkinsop 5504 = fibTakahashi 5504 ∧
    fibBlenkinsop 5505 = fibTakahashi 5505 := by
  have hval : fibZ (100 : ℤ).toNat = 354224848179261915075 := by decide
  have hagree : ∀ n : ℤ, 1 ≤ n →
      fibSeries n = fibBlenkinsop n ∧ fibBlenkinsop n = fibTakahashi n := by
    intro n hn
    rw [fibSeries_eq n hn, fibBlenkinsop_eq n hn, fibTakahashi_eq n hn]
    exact ⟨rfl, rfl⟩
  refine ⟨hagree, ?_, ?_, (hagree 5504 (by norm_num)).2, (hagree 5505 (by norm_num)).2⟩
  · rw [fibSeries_eq 100 (by norm_num)]
    exact hval
  · rw [fibBlenkinsop_eq 100 (by norm_num)]
    exact hval

/-- Witness for C2 at n = 7. -/
theorem claim_C2_witness :
    fibSeries 7 = fibBlenkinsop 7 ∧ fibBlenkinsop 7 = fibTakahashi 7 :=
  claim_C2_evaluators_agree.1 7 (by norm_num)

/-- C3: the dispatcher selects exactly one strategy per call, purely as a
function of n: 0 for n < 1, the widened table entry for 1 ≤ n ≤ 92, the
linear series evaluator for 93 ≤ n ≤ 100, the bit-scanning identity
evaluator for 101 ≤ n ≤ 5504, the Lucas-sequence evaluator for n ≥ 5505. -/
theorem claim_C3_dispatch (n : ℤ) :
    (n < 1 → Fibonacci n = 0) ∧
    (1 ≤ n → n ≤ 92 → Fibonacci n = fibonacciTable.getD n.toNat 0) ∧
    (93 ≤ n → n ≤ 100 → Fibonacci n = fibSeries n) ∧
    (101 ≤ n → n ≤ 5504 → Fibonacci n = fibBlenkinsop n) ∧
    (5505 ≤ n → Fibonacci n = fibTakahashi n) := by
  unfold Fibonacci
  have hlen : (fibonacciTable.length : ℤ) = 93 := by
    rw [fibonacciTable_length]
    norm_num
  rw [hlen]
  refine ⟨fun h => by rw [if_pos h], fun h1 h2 => ?_, fun h1 h2 => ?_,
    fun h1 h2 => ?_, fun h1 => ?_⟩
  · rw [if_neg (by omega), if_pos (by omega)]
  · rw [if_neg (by omega), if_neg (by omega), if_pos (by omega)]
  · rw [if_neg (by omega), if_neg (by omega), if_neg (by omega), if_pos (by omega)]
  · rw [if_neg (by omega), if_neg (by omega), if_neg (by omega), if_neg (by omega)]

/-- Witness for C3: one concrete input in each region. -/
theorem claim_C3_witness :
    Fibonacci (-3) = 0 ∧ Fibonacci 50 = fibonacciTable.getD (50 : ℤ).toNat 0 ∧
    Fibonacci 95 = fibSeries 95 ∧ Fibonacci 200 = fibBlenkinsop 200 ∧
    Fibonacci 6000 = fibTakahashi 6000 :=
  ⟨(claim_C3_dispatch (-3)).1 (by norm_num),
   (claim_C3_dispatch 50).2.1 (by norm_num) (by norm_num),
   (claim_C3_dispatch 95).2.2.1 (by norm_num) (by norm_num),
   (claim_C3_dispatch 200).2.2.2.1 (by norm_num) (by norm_num),
   (claim_C3_dispatch 6000).2.2.2.2 (by norm_num)⟩

/-- C4: every n < 1, negative indices included, yields 0: a defined clamping
result, not a failure. -/
theorem claim_C4_clamp (n : ℤ) (h : n < 1) : Fibonacci n = 0 := by
  unfold Fibonacci
  rw [if_pos h]

/-- Witness for C4 at n = -5. -/
theorem claim_C4_witness : Fibonacci (-5) = 0 :=
  claim_C4_clamp (-5) (by norm_num)

/-- C5: the table is a fixed sequence of exactly 93 machine-integer entries
(all fitting 63 bits), entry i equals F(i) for 0 ≤ i ≤ 92, and `Fibonacci`
returns the table value on those indices; spot checks at 10, 50 and 92. -/
theorem claim_C5_table :
    fibonacciTable.length = 93 ∧
    (∀ i, i < 93 → fibonacciTable.getD i 0 = fibZ i) ∧
    (∀ x ∈ fibonacciTable, 0 ≤ x ∧ x < 2 ^ 63) ∧
    (∀ n : ℤ, 0 ≤ n → n ≤ 92 → Fibonacci n = fibonacciTable.getD n.toNat 0) ∧
    Fibonacci 10 = 55 ∧ Fibonacci 50 = 12586269025 ∧
    Fibonacci 92 = 7540113804746346429 := by
  refine ⟨fibonacciTable_length, fibonacciTable_entries, by decide, fun n h0 h92 => ?_,
    ?_, ?_, ?_⟩
  · rw [Fibonacci_eq n h0]
    exact (fibonacciTable_entries n.toNat (by omega)).symm
  · rw [Fibonacci_eq 10 (by norm_num)]
    decide
  · rw [Fibonacci_eq 50 (by norm_num)]
    decide
  · rw [Fibonacci_eq 92 (by norm_num)]
    decide

/-- Witness for C5 at i = 10 and n = 92. -/
theorem claim_C5_witness :
    fibonacciTable.getD 10 0 = fibZ 10 ∧
    Fibonacci 92 = fibonacciTable.getD (92 : ℤ).toNat 0 :=
  ⟨claim_C5_table.2.1 10 (by norm_num),
   claim_C5_table.2.2.2.1 92 (by norm_num) (by norm_num)⟩

/-- C6 counterexample, at n = 4: after the first loop step the consumed
prefix of n's bits has value k = 4 >>> 1 = 2, but the running pair is
(F(1), F(2)) = (1, 1), not (F(2), F(3)) = (1, 2); and at the end of the loop
f1 holds F(3) = 2 while f2 holds F(4) = 3, so returning f1 would not be
equivalent to returning f2. -/
theorem claim_C6_counterexample :
    (4 : ℕ) >>> 1 = 2 ∧
    blenkStep 4 2 (fibZ 0, fibZ 1) = (fibZ 1, fibZ 2) ∧
    blenkStep 4 2 (fibZ 0, fibZ 1) ≠ (fibZ 2, fibZ 3) ∧
    (blenkLoop 4 (log2 4) (0, 1)).2 = fibZ 4 ∧
    (blenkLoop 4 (log2 4) (0, 1)).1 ≠ fibZ 4 := by decide

/-- C6 amended: in `fibBlenkinsop`, for every n ≥ 1 the running pair starts
as (0, 1) = (F(0), F(1)), matching the consumed prefix k = n >>> log2 n = 1;
each loop step takes the pair (F(k-1), F(k)) for the consumed prefix k to the
pair (F(k'-1), F(k')) for the extended prefix k' = n >>> h — that is, the
pair represents (F(k-1), F(k)), not (F(k), F(k+1)); after consuming all bits
the pair is (F(n-1), F(n)) and the evaluator returns f2 = F(n), while f1
holds F(n-1). -/
theorem claim_C6_invariant (n : ℕ) (hn : 1 ≤ n) :
    (n >>> log2 n = 1 ∧
      ((0 : ℤ), (1 : ℤ)) = (fibZ (n >>> log2 n - 1), fibZ (n >>> log2 n))) ∧
    (∀ h, 1 ≤ n >>> (h + 1) →
      blenkStep n (h + 1) (fibZ (n >>> (h + 1) - 1), fibZ (n >>> (h + 1)))
        = (fibZ (n >>> h - 1), fibZ (n >>> h))) ∧
    blenkLoop n (log2 n) ((0 : ℤ), 1) = (fibZ (n - 1), fibZ n) ∧
    fibBlenkinsop (n : ℤ) = fibZ n := by
  have htop := shiftRight_log2 n hn
  have hstart : ((0 : ℤ), (1 : ℤ)) = (fibZ (n >>> log2 n - 1), fibZ (n >>> log2 n)) := by
    rw [htop]
    norm_num [fibZ]
  have hloop : blenkLoop n (log2 n) ((0 : ℤ), 1) = (fibZ (n - 1), fibZ n) := by
    rw [hstart]
    exact blenkLoop_inv n (log2 n) (by omega)
  refine ⟨⟨htop, hstart⟩, fun h h1 => ?_, hloop, ?_⟩
  · obtain ⟨m, hm⟩ : ∃ m, n >>> (h + 1) = m + 1 := ⟨n >>> (h + 1) - 1, by omega⟩
    have hs : n >>> (h + 1) = n >>> h / 2 := Nat.shiftRight_succ n h
    have hstep := blenkStep_pair n (h + 1) m
    simp only [Nat.add_sub_cancel] at hstep
    rw [hm]
    simp only [Nat.add_sub_cancel]
    rw [hstep]
    rcases Nat.mod_two_eq_zero_or_one (n >>> h) with hb | hb
    · rw [if_neg (by omega)]
      have hval : n >>> h = 2 * m + 2 := by omega
      rw [hval, show 2 * m + 2 - 1 = 2 * m + 1 from by omega]
    · rw [if_pos (by omega)]
      have hval : n >>> h = 2 * m + 3 := by omega
      rw [hval, show 2 * m + 3 - 1 = 2 * m + 2 from by omega]
  · rw [fibBlenkinsop_eq (n : ℤ) (by exact_mod_cast hn), Int.toNat_natCast]

/-- Witness for C6 at n = 6. -/
theorem claim_C6_witness :
    blenkLoop 6 (log2 6) ((0 : ℤ), 1) = (fibZ (6 - 1), fibZ 6) ∧
    fibBlenkinsop ((6 : ℕ) : ℤ) = fibZ 6 :=
  ⟨(claim_C6_invariant 6 (by norm_num)).2.2.1, (claim_C6_invariant 6 (by norm_num)).2.2.2⟩

/-- C7: for every n ≥ 1, `fibSeries n` is the first component after exactly n
iterations of (a, b) ← (b, a+b) from (0, 1), and that value is F(n). -/
theorem claim_C7_series (n : ℤ) (hn : 1 ≤ n) :
    fibSeries n = (fibSeriesLoop n.toNat (0, 1)).1 ∧ fibSeries n = fibZ n.toNat := by
  constructor
  · unfold fibSeries
    rw [if_neg (by omega)]
  · exact fibSeries_eq n hn

/-- Witness for C7 at n = 10. -/
theorem claim_C7_witness :
    fibSeries 10 = (fibSeriesLoop (10 : ℤ).toNat (0, 1)).1 ∧
    fibSeries 10 = fibZ (10 : ℤ).toNat :=
  claim_C7_series 10 (by norm_num)

/-- C8: the Lucas-sequence evaluator handles its edge cases before the bit
scan: 0 for every n ≤ 0, and 1 for n = 1 and n = 2. -/
theorem claim_C8_edge_cases (n : ℤ) :
    (n ≤ 0 → fibTakahashi n = 0) ∧ ((n = 1 ∨ n = 2) → fibTakahashi n = 1) := by
  constructor
  · intro h
    unfold fibTakahashi
    rw [if_pos h]
  · intro h
    unfold fibTakahashi
    rcases h with h | h <;> subst h <;> norm_num

/-- Witness for C8 at n = -7, 1, 2. -/
theorem claim_C8_witness :
    fibTakahashi (-7) = 0 ∧ fibTakahashi 1 = 1 ∧ fibTakahashi 2 = 1 :=
  ⟨(claim_C8_edge_cases (-7)).1 (by norm_num),
   (claim_C8_edge_cases 1).2 (Or.inl rfl),
   (claim_C8_edge_cases 2).2 (Or.inr rfl)⟩

/-- C9: for every n ≥ 1, `log2 n` is floor(log₂ n), the 0-indexed position of
the most significant set bit of n. -/
theorem claim_C9_log2 (n : ℕ) (hn : 1 ≤ n) :
    log2 n = Nat.log 2 n ∧ 2 ^ log2 n ≤ n ∧ n < 2 ^ (log2 n + 1) :=
  ⟨log2_eq_log n hn, log2_msb n hn⟩

/-- Witness for C9 at n = 13. -/
theorem claim_C9_witness :
    log2 13 = Nat.log 2 13 ∧ 2 ^ log2 13 ≤ 13 ∧ 13 < 2 ^ (log2 13 + 1) :=
  claim_C9_log2 13 (by norm_num)

/-- C10: `Fibonacci` terminates for every input: with fuel n+1 every call
path of the dispatcher completes (`some`), so `log2` is reached only with an
argument ≥ 1 and its loop exits there, while on any negative argument the
`log2` loop guard stays true for ever (no fuel gives a result), so the n ≥ 1
guard on every call path is a necessary invariant. -/
theorem claim_C10_termination :
    (∀ n : ℤ, FibonacciOpt (n.toNat + 1) n = some (Fibonacci n)) ∧
    (∀ n : ℤ, 1 ≤ n → ∃ fuel, log2LoopZ n fuel 0 = some (log2 n.toNat)) ∧
    (∀ n : ℤ, n < 0 → ∀ fuel bits, log2LoopZ n fuel bits = none) :=
  ⟨FibonacciOpt_total, fun n hn => ⟨n.toNat + 1, log2LoopZ_eq_log2 n hn⟩, log2LoopZ_neg⟩

/-- Witness for C10 at n = 6000, 9 and -4. -/
theorem claim_C10_witness :
    FibonacciOpt ((6000 : ℤ).toNat + 1) 6000 = some (Fibonacci 6000) ∧
    (∃ fuel, log2LoopZ 9 fuel 0 = some (log2 (9 : ℤ).toNat)) ∧
    log2LoopZ (-4) 1000 0 = none :=
  ⟨claim_C10_termination.1 6000, claim_C10_termination.2.1 9 (by norm_num),
   claim_C10_termination.2.2 (-4) (by norm_num) 1000 0⟩
